import Mathlib

/-!
Shallow embedding of the dispatch/orchestration engine of the multi-agent
frontend-development demo (source files `src/agents/orchestrator.js`,
`src/agents/worker.js`, `src/agents/base.js`).

Conventions of the embedding:
* JavaScript numbers that hold priorities are modelled as `Option Int`
  (`none` = the `priority` field is absent / `null` / otherwise falsy-invalid;
  `some 0` is kept separate because `0` is falsy in JS and is therefore
  defaulted by `component.priority || 1` exactly like an absent field).
* A JS object keyed by numbers is modelled as an insertion-ordered
  association list `List (Int × List Component)`; `Object.entries`
  enumeration order (ECMA-262 OrdinaryOwnPropertyKeys: array-index keys,
  i.e. canonical integers `0 ≤ n < 2^32 - 1`, in ascending numeric order
  first, then the remaining keys in insertion order) is modelled by
  `jsObjectEntries`.
* The Claude CLI subprocess spawned by `BaseAgent.execute` is modelled by a
  `SpawnResult` record (the fields of Node's `spawnSync` result that the
  code reads); the asynchronous Worker call of a component in a given
  working directory is modelled by a function
  `spawnOf : Component → String → SpawnResult`.
* `console.log` side effects that the claims mention are modelled as
  explicit lists of log lines produced alongside the results.
* The concurrent execution of one batch (`Promise.all` over the chunk) is
  modelled by the set of event traces `IsBatchTrace`; a full run of the
  dispatch loop is any trace in `IsDispatchTrace`.
-/

/-- A component descriptor as produced by the Planner
(`plan.components` element): only the fields the dispatch engine reads. -/
structure Component where
  name : String
  priority : Option Int
  deriving Repr, DecidableEq

/-- The effective priority used by `groupByPriority`
(`const priority = component.priority || 1`): absent/invalid and `0`
(falsy in JS) default to `1`. -/
def effPriority (c : Component) : Int :=
  match c.priority with
  | none => 1
  | some p => if p = 0 then 1 else p

/-- One step of building the priority-keyed JS object
(`groups[priority] = groups[priority] || []; groups[priority].push(component)`):
append to the existing group of this key, or add a new key at the end
(JS objects preserve insertion order of keys). -/
def insertGrouped (p : Int) (c : Component) :
    List (Int × List Component) → List (Int × List Component)
  | [] => [(p, [c])]
  | g :: gs => if g.1 = p then (g.1, g.2 ++ [c]) :: gs else g :: insertGrouped p c gs

/-- `Orchestrator.groupByPriority` (orchestrator.js:293-302): reduce over the
components, grouping them under their (defaulted) priority key. -/
def groupByPriority (components : List Component) : List (Int × List Component) :=
  components.foldl (fun groups c => insertGrouped (effPriority c) c groups) []

/-- Whether an integer-valued property key is an ECMA-262 array index
(`0 ≤ n < 2^32 - 1`); such keys are enumerated first, in ascending order. -/
def isArrayIndexKey (p : Int) : Bool :=
  decide (0 ≤ p) && decide (p < 4294967295)

/-- Ordering of object entries by their numeric key. -/
def entryLE (a b : Int × List Component) : Prop := a.1 ≤ b.1

instance : DecidableRel entryLE :=
  fun a b => inferInstanceAs (Decidable (a.1 ≤ b.1))

instance : IsTotal (Int × List Component) entryLE :=
  ⟨fun a b => Int.le_total a.1 b.1⟩

instance : IsTrans (Int × List Component) entryLE :=
  ⟨fun _ _ _ h₁ h₂ => le_trans h₁ h₂⟩

/-- `Object.entries` enumeration order for an insertion-ordered object with
integer-valued keys: array-index keys ascending, then the rest in insertion
order. -/
def jsObjectEntries (groups : List (Int × List Component)) :
    List (Int × List Component) :=
  List.insertionSort entryLE (groups.filter fun g => isArrayIndexKey g.1) ++
    (groups.filter fun g => !isArrayIndexKey g.1)

/-- `Orchestrator.chunkArray` (orchestrator.js:307-313):
`for (let i = 0; i < array.length; i += size) chunks.push(array.slice(i, i + size))`.
The loop visits `i = 0, size, 2*size, …` while `i < array.length`, i.e.
`⌈array.length / size⌉` iterations, and `slice(i, i + size)` is
`(array.drop i).take size`. (For `size = 0` the JS loop does not terminate;
all theorems below assume `0 < size`.) -/
def chunkArray {α : Type} (array : List α) (size : Nat) : List (List α) :=
  (List.range ((array.length + size - 1) / size)).map
    fun i => (array.drop (i * size)).take size

/-- The fields of the `spawnSync` result that `BaseAgent.execute` reads
(base.js:85-104). -/
structure SpawnResult where
  error : Option String
  status : Int
  stdout : String
  stderr : String
  deriving Repr, DecidableEq

/-- `BaseAgent.execute` (base.js:41-132), text-output mode as used by the
Worker: a spawn error is re-raised (`Except.error`); otherwise the trimmed
stdout is returned — a nonzero exit status only logs a warning. -/
def execute (result : SpawnResult) : Except String String :=
  match result.error with
  | some e => Except.error ("CLI spawn error: " ++ e)
  | none => Except.ok result.stdout.trim

/-- The warning line `BaseAgent.execute` logs when the CLI exits nonzero
without a spawn error (base.js:103-105); `substring(0, 200)` is modelled by
`String.take 200`. -/
def executeWarnLogs (result : SpawnResult) : List String :=
  if result.error = none ∧ result.status ≠ 0 then
    ["CLI 警告 (exit " ++ toString result.status ++ "): " ++ result.stderr.take 200]
  else []

/-- Character-level splitting of a component name on `-` and `_`
(`str.split(/[-_]/)` in worker.js:125-130). -/
def splitOnDash : List Char → List (List Char)
  | [] => [[]]
  | ch :: rest =>
    if ch = '-' || ch = '_' then [] :: splitOnDash rest
    else
      match splitOnDash rest with
      | [] => [[ch]]
      | w :: ws => (ch :: w) :: ws

/-- `word.charAt(0).toUpperCase() + word.slice(1).toLowerCase()` for one word
(the empty word stays empty, as in JS). -/
def pascalWord : List Char → List Char
  | [] => []
  | ch :: rest => ch.toUpper :: rest.map Char.toLower

/-- `WorkerAgent.toPascalCase` (worker.js:125-130). -/
def toPascalCase (str : String) : String :=
  String.mk ((splitOnDash str.data).map pascalWord).flatten

/-- A task outcome as built by `WorkerAgent.buildComponent`: the success
object carries `filesCreated` and no `error`; the failure object carries
`error` and no files (modelled as the empty list). -/
structure Outcome where
  status : String
  component : String
  filesCreated : List String
  error : Option String
  summary : String
  deriving Repr, DecidableEq

/-- `WorkerAgent.buildComponent` (worker.js:44-120): run the CLI via
`execute`; on success return the `status: 'success'` record, on any raised
failure catch it and return the `status: 'failed'` record with the error
message — the failure is never re-raised. -/
def buildComponent (component : Component) (workingDir : String)
    (spawned : SpawnResult) : Outcome :=
  let pascalName := toPascalCase component.name
  match execute spawned with
  | Except.ok _ =>
    { status := "success"
      component := pascalName
      filesCreated :=
        ["src/components/" ++ pascalName ++ "/index.tsx",
         "src/components/" ++ pascalName ++ "/" ++ pascalName ++ ".types.ts",
         "src/components/" ++ pascalName ++ "/" ++ pascalName ++ ".test.tsx"]
      error := none
      summary := "组件 " ++ pascalName ++ " 已生成并提交" }
  | Except.error e =>
    { status := "failed"
      component := pascalName
      filesCreated := []
      error := some e
      summary := "组件 " ++ pascalName ++ " 构建失败: " ++ e }

/-- The orchestrator configuration fields the dispatch loop reads
(orchestrator.js:17-23). -/
structure Config where
  worktreeBase : String
  maxParallelWorkers : Nat
  projectRoot : String
  deriving Repr, DecidableEq

/-- Node's `path.join` modelled as concatenation with a separator
(`..`-segment normalisation is irrelevant to the claims). -/
def pathJoin (a b : String) : String := a ++ "/" ++ b

/-- `join(join(projectRoot, worktreeBase), component.name)`
(orchestrator.js:200,213). -/
def worktreePathFor (cfg : Config) (c : Component) : String :=
  pathJoin (pathJoin cfg.projectRoot cfg.worktreeBase) c.name

/-- The working directory a component is dispatched against: its worktree
when `existsSync(worktreePath)` holds, otherwise the shared project root
(orchestrator.js:216-218). -/
def workingDirFor (cfg : Config) (hasWorktree : Component → Bool)
    (c : Component) : String :=
  if hasWorktree c then worktreePathFor cfg c else cfg.projectRoot

/-- `Orchestrator.buildInMainProject` (orchestrator.js:267-275): build the
component with the project root as working directory. -/
def buildInMainProject (cfg : Config)
    (spawnOf : Component → String → SpawnResult) (c : Component) : Outcome :=
  buildComponent c cfg.projectRoot (spawnOf c cfg.projectRoot)

/-- The per-component body of the dispatch loop (orchestrator.js:212-253):
if the worktree exists, build there; otherwise fall back to the main
project. (`buildComponent` is total, so the surrounding `catch` that would
also produce a `failed` record is unreachable; the `{component, ...result}`
wrapper is the identity on the outcome because the spread of `result` —
which already carries a `component` field — comes last and overwrites the
freshly added key.) -/
def runComponent (cfg : Config) (hasWorktree : Component → Bool)
    (spawnOf : Component → String → SpawnResult) (c : Component) : Outcome :=
  if hasWorktree c then
    buildComponent c (worktreePathFor cfg c) (spawnOf c (worktreePathFor cfg c))
  else
    buildInMainProject cfg spawnOf c

/-- The warning `executeWorkers` logs for a component whose worktree is
absent (orchestrator.js:217). -/
def worktreeMissingLog (c : Component) : String :=
  "[" ++ c.name ++ "] ⚠️ Worktree 不存在，使用主项目目录"

/-- Log lines contributed by one component of a chunk. -/
def componentWarnLogs (hasWorktree : Component → Bool) (c : Component) :
    List String :=
  if hasWorktree c then [] else [worktreeMissingLog c]

/-- `Orchestrator.executeWorkers` (orchestrator.js:198-262), result value:
for each `[priority, group]` of `Object.entries(this.groupByPriority(components))`,
for each chunk of `this.chunkArray(group, this.config.maxParallelWorkers)`,
the chunk's outcomes (one `Promise.all` batch) are appended to `results`. -/
def executeWorkers (cfg : Config) (hasWorktree : Component → Bool)
    (spawnOf : Component → String → SpawnResult)
    (components : List Component) : List Outcome :=
  (jsObjectEntries (groupByPriority components)).flatMap fun pg =>
    (chunkArray pg.2 cfg.maxParallelWorkers).flatMap fun chunk =>
      chunk.map (runComponent cfg hasWorktree spawnOf)

/-- The worktree-missing warnings `executeWorkers` prints, in dispatch
order (the decorative per-tier banner lines are not modelled). -/
def executeWorkersLogs (cfg : Config) (hasWorktree : Component → Bool)
    (components : List Component) : List String :=
  (jsObjectEntries (groupByPriority components)).flatMap fun pg =>
    (chunkArray pg.2 cfg.maxParallelWorkers).flatMap fun chunk =>
      chunk.flatMap (componentWarnLogs hasWorktree)

/-- The sequence of `Promise.all` batches the dispatch loop runs, in order:
tiers in `Object.entries` order, each tier chunked by the concurrency
limit. -/
def batchesOf (limit : Nat) (components : List Component) :
    List (List Component) :=
  (jsObjectEntries (groupByPriority components)).flatMap fun pg =>
    chunkArray pg.2 limit

/-- A development plan as far as the engine inspects it. -/
structure Plan where
  components : List Component
  deriving Repr, DecidableEq

/-- Observable side-effect slots of `processDesign` that the claims talk
about: creating a worktree for a component, invoking a Worker on one. -/
inductive EngineAction where
  | setupWorktree (name : String)
  | invokeWorker (name : String)
  deriving Repr, DecidableEq

/-- The message of the error `processDesign` throws for a missing or empty
plan (orchestrator.js:59). -/
def planFailureMsg : String := "Planner 未能生成有效的开发计划"

/-- `Orchestrator.processDesign` (orchestrator.js:43-98): the plan check
`!plan || !plan.components || plan.components.length === 0` throws before
`setupWorktrees` or any Worker runs; otherwise worktrees are set up for all
components and the dispatch loop runs. Returns the thrown error or the
results, together with the performed actions. -/
def processDesign (cfg : Config) (hasWorktree : Component → Bool)
    (spawnOf : Component → String → SpawnResult) (plan : Option Plan) :
    Except String (List Outcome) × List EngineAction :=
  match plan with
  | none => (Except.error planFailureMsg, [])
  | some p =>
    if p.components = [] then (Except.error planFailureMsg, [])
    else
      (Except.ok (executeWorkers cfg hasWorktree spawnOf p.components),
       p.components.map (fun c => EngineAction.setupWorktree c.name)
         ++ (batchesOf cfg.maxParallelWorkers p.components).flatten.map
             (fun c => EngineAction.invokeWorker c.name))

/-- The `partial` tally of `Orchestrator.printSummary`
(orchestrator.js:322): `results.filter(r => r.status === 'partial').length`. -/
def countPartialStatus (results : List Outcome) : Nat :=
  (results.filter fun r => r.status == "partial").length

/-- An observable scheduling event: a Task Executor call starting or
reaching its terminal outcome. -/
inductive Ev where
  | start (name : String)
  | finish (name : String)
  deriving Repr, DecidableEq

/-- Names of the start events of a trace, in order. -/
def startsOf (tr : List Ev) : List String :=
  tr.filterMap fun e =>
    match e with
    | Ev.start n => some n
    | Ev.finish _ => none

/-- Names of the finish events of a trace, in order. -/
def finishesOf (tr : List Ev) : List String :=
  tr.filterMap fun e =>
    match e with
    | Ev.start _ => none
    | Ev.finish n => some n

/-- Number of Task Executor calls in flight after a trace prefix: started
and not yet finished. -/
def inFlightCount (tr : List Ev) : Nat :=
  (startsOf tr).length - (finishesOf tr).length

/-- The traces one `await Promise.all(chunk.map(...))` batch can produce:
every task of the batch starts exactly once and finishes exactly once, and
at no point has a task finished more often than it has started. -/
def IsBatchTrace (batch : List Component) (tr : List Ev) : Prop :=
  (startsOf tr).Perm (batch.map Component.name) ∧
  (finishesOf tr).Perm (batch.map Component.name) ∧
  ∀ k, k ≤ tr.length → ∀ n ∈ batch.map Component.name,
    (finishesOf (tr.take k)).count n ≤ (startsOf (tr.take k)).count n

instance (batch : List Component) (tr : List Ev) :
    Decidable (IsBatchTrace batch tr) := by
  unfold IsBatchTrace; infer_instance

/-- The traces the dispatch loop of `executeWorkers` can produce: the
batches run strictly one after another (the loop awaits each `Promise.all`
before starting the next chunk, and tiers are traversed sequentially). -/
def IsDispatchTrace (limit : Nat) (components : List Component)
    (tr : List Ev) : Prop :=
  ∃ segs : List (List Ev),
    List.Forall₂ IsBatchTrace (batchesOf limit components) segs ∧
    tr = segs.flatten

/-! ### Structural lemmas about `chunkArray` -/

/-- Number of chunks of a list one element shorter than a chunk boundary. -/
theorem chunkNum_succ (n size : Nat) (hs : 0 < size) (hn : 0 < n) :
    (n + size - 1) / size = ((n - size) + size - 1) / size + 1 := by
  rcases le_or_lt n size with h | h
  · have h1 : (n + size - 1) / size = 1 :=
      Nat.div_eq_of_lt_le (by omega) (by omega)
    have h2 : n - size = 0 := by omega
    have h3 : (0 + size - 1) / size = 0 := Nat.div_eq_of_lt (by omega)
    rw [h1, h2, h3]
  · have heq : n + size - 1 = ((n - size) + size - 1) + size := by omega
    rw [heq, Nat.add_div_right _ hs]

/-- Unfolding `chunkArray` one slice at a time. -/
theorem chunkArray_cons {α : Type} (l : List α) (size : Nat) (hs : 0 < size)
    (hl : l ≠ []) :
    chunkArray l size = l.take size :: chunkArray (l.drop size) size := by
  have hn : 0 < l.length := List.length_pos.mpr hl
  unfold chunkArray
  rw [List.length_drop, chunkNum_succ l.length size hs hn, List.range_succ_eq_map]
  simp only [List.map_cons, List.map_map, Nat.zero_mul, List.drop_zero]
  refine congrArg₂ _ rfl (List.map_congr_left fun i _ => ?_)
  have : size + i * size = Nat.succ i * size := by
    rw [Nat.succ_mul]; omega
  simp only [Function.comp_apply, List.drop_drop, this]

/-- The chunks concatenate back to the original list. -/
theorem chunkArray_flatten {α : Type} (size : Nat) (hs : 0 < size)
    (l : List α) : (chunkArray l size).flatten = l := by
  have H : ∀ (n : Nat) (l : List α), l.length = n →
      (chunkArray l size).flatten = l := by
    intro n
    induction n using Nat.strong_induction_on with
    | _ n ih =>
      intro l hln
      rcases eq_or_ne l [] with rfl | hl
      · simp [chunkArray]
      · rw [chunkArray_cons l size hs hl, List.flatten_cons]
        have hlen : (l.drop size).length < n := by
          rw [List.length_drop]
          have := List.length_pos.mpr hl
          omega
        rw [ih _ hlen _ rfl, List.take_append_drop]
  exact H l.length l rfl

/-- Every chunk is nonempty and no longer than the requested size. -/
theorem mem_chunkArray_length {α : Type} {l : List α} {size : Nat}
    (hs : 0 < size) {ch : List α} (h : ch ∈ chunkArray l size) :
    ch.length ≤ size ∧ ch ≠ [] := by
  unfold chunkArray at h
  rcases List.mem_map.mp h with ⟨i, hi, rfl⟩
  rcases List.mem_range.mp hi with hilt
  have hmul : (i + 1) * size ≤ l.length + size - 1 :=
    (Nat.le_div_iff_mul_le hs).mp hilt
  have hlt : i * size < l.length := by
    have : (i + 1) * size = i * size + size := by rw [Nat.succ_mul]
    rw [this] at hmul
    generalize i * size = q at *
    omega
  constructor
  · simpa using Nat.min_le_left size ((l.drop (i * size)).length)
  · have : ((l.drop (i * size)).take size).length ≠ 0 := by
      simp only [List.length_take, List.length_drop]
      have h1 : 0 < min size (l.length - i * size) := by
        generalize i * size = q at *
        omega
      omega
    exact fun hc => this (by rw [hc]; rfl)

/-- Every chunk except possibly the last has length exactly `size`. -/
theorem chunkArray_get_length {α : Type} (l : List α) (size i : Nat)
    (hs : 0 < size) (hi : i + 1 < (chunkArray l size).length) :
    ((chunkArray l size).get ⟨i, Nat.lt_of_succ_lt hi⟩).length = size := by
  have hlen : (chunkArray l size).length = (l.length + size - 1) / size := by
    unfold chunkArray
    rw [List.length_map, List.length_range]
  have hidx : i + 1 < (l.length + size - 1) / size := by rw [← hlen]; exact hi
  have hmul : (i + 1 + 1) * size ≤ l.length + size - 1 :=
    (Nat.le_div_iff_mul_le hs).mp hidx
  have hroom : i * size + size ≤ l.length := by
    have h1 : (i + 1 + 1) * size = i * size + size + size := by ring
    rw [h1] at hmul
    generalize i * size = q at *
    omega
  have hget : (chunkArray l size).get ⟨i, Nat.lt_of_succ_lt hi⟩
      = (l.drop (i * size)).take size := by
    unfold chunkArray
    simp [List.get_eq_getElem, List.getElem_map, List.getElem_range]
  rw [hget]
  simp only [List.length_take, List.length_drop]
  generalize i * size = q at *
  omega

/-! ### Lemmas about `groupByPriority` -/

/-- Lookup of the group stored under a priority key (the JS property read
`groups[priority]`, first — and only — matching key of the association
list). -/
def findGroup (p : Int) : List (Int × List Component) → List Component
  | [] => []
  | g :: gs => if g.1 = p then g.2 else findGroup p gs

theorem findGroup_insertGrouped (q : Int) (c : Component) (p : Int)
    (gs : List (Int × List Component)) :
    findGroup p (insertGrouped q c gs)
      = findGroup p gs ++ (if q = p then [c] else []) := by
  induction gs with
  | nil =>
    by_cases h : q = p <;> simp [insertGrouped, findGroup, h]
  | cons g gs ih =>
    by_cases hg : g.1 = q
    · by_cases hp : q = p
      · simp [insertGrouped, findGroup, hg, hp]
      · have : ¬ g.1 = p := by rw [hg]; exact hp
        simp [insertGrouped, findGroup, hg, hp, this]
    · by_cases hp : g.1 = p
      · have hqp : ¬ q = p := fun hh => hg (by rw [hp, hh])
        have hpq : ¬ p = q := fun hh => hqp hh.symm
        simp [insertGrouped, findGroup, hg, hp, hqp, hpq]
      · simp [insertGrouped, findGroup, hg, hp, ih]

theorem findGroup_foldl (cs : List Component)
    (acc : List (Int × List Component)) (p : Int) :
    findGroup p (cs.foldl (fun groups c => insertGrouped (effPriority c) c groups) acc)
      = findGroup p acc ++ cs.filter (fun c => effPriority c == p) := by
  induction cs generalizing acc with
  | nil => simp
  | cons c cs ih =>
    rw [List.foldl_cons, ih, findGroup_insertGrouped]
    by_cases h : effPriority c = p
    · simp [List.filter_cons, h, List.append_assoc]
    · have hb : (effPriority c == p) = false := by
        simpa using h
      simp [List.filter_cons, h, hb]

/-- `groups[p]` is exactly the subsequence of components whose defaulted
priority is `p`, in their original relative order. -/
theorem findGroup_groupByPriority (components : List Component) (p : Int) :
    findGroup p (groupByPriority components)
      = components.filter (fun c => effPriority c == p) := by
  unfold groupByPriority
  rw [findGroup_foldl]
  rfl

theorem flatten_insertGrouped (q : Int) (c : Component)
    (gs : List (Int × List Component)) :
    ((insertGrouped q c gs).map Prod.snd).flatten.Perm
      ((gs.map Prod.snd).flatten ++ [c]) := by
  induction gs with
  | nil => simp [insertGrouped]
  | cons g gs ih =>
    by_cases hg : g.1 = q
    · simp only [insertGrouped, hg, if_pos, List.map_cons, List.flatten_cons]
      rw [List.append_assoc, List.append_assoc]
      exact (List.perm_append_comm).append_left g.2
    · simp only [insertGrouped, hg, if_neg, not_false_iff, List.map_cons,
        List.flatten_cons]
      simpa [List.append_assoc] using ih.append_left g.2

theorem flatten_foldl_group (cs : List Component)
    (acc : List (Int × List Component)) :
    ((cs.foldl (fun groups c => insertGrouped (effPriority c) c groups) acc).map
        Prod.snd).flatten.Perm ((acc.map Prod.snd).flatten ++ cs) := by
  induction cs generalizing acc with
  | nil => simp
  | cons c cs ih =>
    rw [List.foldl_cons]
    refine (ih _).trans ?_
    have h1 := (flatten_insertGrouped (effPriority c) c acc).append_right cs
    refine h1.trans ?_
    rw [List.append_assoc]
    exact List.Perm.refl _

/-- The groups of `groupByPriority` partition the input (as a multiset). -/
theorem flatten_groupByPriority (components : List Component) :
    ((groupByPriority components).map Prod.snd).flatten.Perm components := by
  unfold groupByPriority
  simpa using flatten_foldl_group components []

theorem mem_insertGrouped_key (q : Int) (c : Component)
    (gs : List (Int × List Component)) (pair : Int × List Component)
    (h : pair ∈ insertGrouped q c gs) : pair ∈ gs ∨ pair.1 = q := by
  induction gs with
  | nil =>
    simp only [insertGrouped, List.mem_singleton] at h
    right; rw [h]
  | cons g gs ih =>
    by_cases hg : g.1 = q
    · simp only [insertGrouped, hg, if_pos, List.mem_cons] at h
      rcases h with h | h
      · right; rw [h]
      · left; exact List.mem_cons_of_mem _ h
    · simp only [insertGrouped, hg, if_neg, not_false_iff, List.mem_cons] at h
      rcases h with h | h
      · left; rw [h]; exact List.mem_cons_self _ _
      · rcases ih h with h' | h'
        · left; exact List.mem_cons_of_mem _ h'
        · right; exact h'

theorem mem_groupByPriority_key (components : List Component)
    (pair : Int × List Component) (h : pair ∈ groupByPriority components) :
    ∃ c ∈ components, pair.1 = effPriority c := by
  have H : ∀ (cs : List Component) (acc : List (Int × List Component)),
      pair ∈ cs.foldl (fun groups c => insertGrouped (effPriority c) c groups) acc →
      pair ∈ acc ∨ ∃ c ∈ cs, pair.1 = effPriority c := by
    intro cs
    induction cs with
    | nil => intro acc hm; exact Or.inl hm
    | cons c cs ih =>
      intro acc hm
      rw [List.foldl_cons] at hm
      rcases ih _ hm with hacc | ⟨c', hc', he⟩
      · rcases mem_insertGrouped_key _ _ _ _ hacc with h' | h'
        · exact Or.inl h'
        · exact Or.inr ⟨c, List.mem_cons_self _ _, h'⟩
      · exact Or.inr ⟨c', List.mem_cons_of_mem _ hc', he⟩
  rcases H components [] h with h' | h'
  · simp at h'
  · exact h'

/-! ### Lemmas about `jsObjectEntries` and the batch structure -/

/-- `Object.entries` is a permutation of the object's entries. -/
theorem jsObjectEntries_perm (groups : List (Int × List Component)) :
    (jsObjectEntries groups).Perm groups := by
  unfold jsObjectEntries
  refine List.Perm.trans ?_ (List.filter_append_perm (fun g => isArrayIndexKey g.1) groups)
  exact (List.perm_insertionSort entryLE _).append_right _

theorem jsObjectEntries_flatten_perm (groups : List (Int × List Component)) :
    ((jsObjectEntries groups).map Prod.snd).flatten.Perm
      ((groups.map Prod.snd).flatten) :=
  ((jsObjectEntries_perm groups).map Prod.snd).flatten

theorem flatten_flatMap {α β : Type} (l : List α) (f : α → List (List β)) :
    (l.flatMap f).flatten = l.flatMap fun x => (f x).flatten := by
  induction l with
  | nil => rfl
  | cons a l ih => simp [List.flatMap_cons, List.flatten_append, ih]

/-- The batches, concatenated, are a permutation of the submitted
components. -/
theorem batchesOf_flatten_perm (limit : Nat) (hs : 0 < limit)
    (components : List Component) :
    (batchesOf limit components).flatten.Perm components := by
  unfold batchesOf
  rw [flatten_flatMap]
  have h1 : ((jsObjectEntries (groupByPriority components)).flatMap
        fun pg => (chunkArray pg.2 limit).flatten)
      = (jsObjectEntries (groupByPriority components)).flatMap fun pg => pg.2 := by
    rw [List.flatMap_def, List.flatMap_def]
    refine congrArg _ (List.map_congr_left fun pg _ => ?_)
    exact chunkArray_flatten limit hs pg.2
  rw [h1, List.flatMap_def]
  exact (jsObjectEntries_flatten_perm _).trans (flatten_groupByPriority components)

/-- Every batch is nonempty and respects the concurrency limit. -/
theorem mem_batchesOf_length (limit : Nat) (hs : 0 < limit)
    (components : List Component) (b : List Component)
    (h : b ∈ batchesOf limit components) : b.length ≤ limit ∧ b ≠ [] := by
  unfold batchesOf at h
  rcases List.mem_flatMap.mp h with ⟨pg, _, hb⟩
  exact mem_chunkArray_length hs hb

/-- The dispatch loop's results are the per-component outcomes, mapped over
the batches in dispatch order. -/
theorem executeWorkers_eq_map (cfg : Config) (hasWorktree : Component → Bool)
    (spawnOf : Component → String → SpawnResult) (components : List Component) :
    executeWorkers cfg hasWorktree spawnOf components
      = (batchesOf cfg.maxParallelWorkers components).flatten.map
          (runComponent cfg hasWorktree spawnOf) := by
  unfold executeWorkers batchesOf
  rw [flatten_flatMap, List.map_flatMap]
  refine congrArg _ (funext fun pg => ?_)
  rw [List.map_flatten, List.flatMap_def]

/-- The dispatch loop's warning lines are the per-component warnings,
flat-mapped over the batches in dispatch order. -/
theorem executeWorkersLogs_eq (cfg : Config) (hasWorktree : Component → Bool)
    (components : List Component) :
    executeWorkersLogs cfg hasWorktree components
      = (batchesOf cfg.maxParallelWorkers components).flatten.flatMap
          (componentWarnLogs hasWorktree) := by
  unfold executeWorkersLogs batchesOf
  rw [flatten_flatMap, List.flatMap_assoc]
  refine congrArg _ (funext fun pg => ?_)
  rw [List.flatten_eq_flatMap, List.flatMap_assoc]
  rfl

/-! ### Concrete demo values shared by witnesses and counterexamples -/

/-- A configuration like the one `src/index.js` builds (concurrency 2 for
small examples). -/
def cfgDemo : Config :=
  { worktreeBase := "../worktrees", maxParallelWorkers := 2, projectRoot := "/repo" }

/-- A spawn result of a CLI run that exits cleanly. -/
def okSpawn : SpawnResult :=
  { error := none, status := 0, stdout := "done", stderr := "" }

/-- A spawn result whose `error` field is set (the CLI could not be
spawned), making `execute` raise. -/
def errSpawn : SpawnResult :=
  { error := some "boom", status := 1, stdout := "", stderr := "" }

/-- A spawn result of a CLI run that exited nonzero without a spawn
error. -/
def nzSpawn : SpawnResult :=
  { error := none, status := 1, stdout := "out", stderr := "err" }

def buttonC : Component := { name := "button", priority := some 1 }

def inputC : Component := { name := "input", priority := some 1 }

def cardC : Component := { name := "card", priority := some 2 }

/-! ### C3 — `chunkArray` partitions its input -/

/-- C3: for every array and every positive chunk size, `chunkArray`
partitions the array into consecutive batches: the concatenation of the
batches equals the original array, every batch is nonempty and no longer
than `size`, and every batch except possibly the last has length exactly
`size`. -/
theorem chunkArray_partitions {α : Type} (l : List α) (size : Nat)
    (hs : 0 < size) :
    (chunkArray l size).flatten = l ∧
    (∀ ch ∈ chunkArray l size, ch.length ≤ size ∧ ch ≠ []) ∧
    (∀ i (hi : i + 1 < (chunkArray l size).length),
      ((chunkArray l size).get ⟨i, Nat.lt_of_succ_lt hi⟩).length = size) :=
  ⟨chunkArray_flatten size hs l,
   fun _ hch => mem_chunkArray_length hs hch,
   fun i hi => chunkArray_get_length l size i hs hi⟩

theorem chunkArray_partitions_witness :
    0 < 2 ∧ (chunkArray ([1, 2, 3, 4, 5] : List Nat) 2).flatten = [1, 2, 3, 4, 5] :=
  ⟨by decide, (chunkArray_partitions ([1, 2, 3, 4, 5] : List Nat) 2 (by decide)).1⟩

/-! ### C8 — default priority tier and stability -/

/-- C8: every component whose `priority` field is absent or invalid (falsy
in JS, including the value `0`) lands in the default tier `1`, and inside
every tier the components keep their original relative order: each tier's
group is literally the `filter` of the input list. -/
theorem groupByPriority_default_tier (components : List Component) :
    (∀ p : Int, findGroup p (groupByPriority components)
        = components.filter (fun c => effPriority c == p)) ∧
    findGroup 1 (groupByPriority components)
      = components.filter (fun c =>
          c.priority == none || c.priority == some 0 || c.priority == some 1) := by
  refine ⟨findGroup_groupByPriority components, ?_⟩
  rw [findGroup_groupByPriority]
  refine List.filter_congr fun c _ => ?_
  rcases hc : c.priority with _ | p
  · simp [effPriority, hc]
  · by_cases h0 : p = 0
    · simp [effPriority, hc, h0]
    · by_cases h1 : p = 1
      · simp [effPriority, hc, h0, h1]
      · simp [effPriority, hc, h0, h1]

/-! ### C5 — exactly one outcome per submitted component -/

/-- C5: for every nonempty component list, `executeWorkers` returns exactly
one outcome per submitted component: the result length equals the number of
components, and the results are a permutation of the per-component
outcomes (no component omitted, none counted twice). -/
theorem executeWorkers_outcome_completeness (cfg : Config)
    (hasWorktree : Component → Bool)
    (spawnOf : Component → String → SpawnResult) (components : List Component)
    (hlim : 0 < cfg.maxParallelWorkers) (hne : components ≠ []) :
    (executeWorkers cfg hasWorktree spawnOf components).length
        = components.length ∧
    (executeWorkers cfg hasWorktree spawnOf components).Perm
      (components.map (runComponent cfg hasWorktree spawnOf)) := by
  have hperm : (executeWorkers cfg hasWorktree spawnOf components).Perm
      (components.map (runComponent cfg hasWorktree spawnOf)) := by
    rw [executeWorkers_eq_map]
    exact (batchesOf_flatten_perm _ hlim components).map _
  exact ⟨by rw [hperm.length_eq, List.length_map], hperm⟩

theorem executeWorkers_outcome_completeness_witness :
    0 < cfgDemo.maxParallelWorkers ∧
    ([buttonC, cardC] : List Component) ≠ [] ∧
    (executeWorkers cfgDemo (fun _ => true) (fun _ _ => okSpawn)
        [buttonC, cardC]).length = ([buttonC, cardC] : List Component).length :=
  ⟨by decide, by decide,
   (executeWorkers_outcome_completeness cfgDemo (fun _ => true)
      (fun _ _ => okSpawn) [buttonC, cardC] (by decide) (by decide)).1⟩

/-! ### C1 — tier enumeration order -/

/-- Two components whose (defaulted) priorities are `2` and `-1`: a
negative priority is an allowed integer tier for a TaskDescriptor, but its
JS object key `"-1"` is not an array index, so `Object.entries` leaves it
after all array-index keys. -/
def negPriorityComponents : List Component :=
  [{ name := "alpha", priority := some 2 }, { name := "beta", priority := some (-1) }]

/-- C1 counterexample: with priorities `[2, -1]` the sequence of tier keys
that `executeWorkers` iterates over is `[2, -1]`, which is not sorted
ascending — the grouping does not order tiers ascending for every priority
value an integer-priority TaskDescriptor may carry. -/
theorem tier_order_not_ascending_for_negative_priority :
    ((jsObjectEntries (groupByPriority negPriorityComponents)).map Prod.fst
        = [2, -1]) ∧
    ¬ List.Pairwise (fun a b : Int => a ≤ b)
        ((jsObjectEntries (groupByPriority negPriorityComponents)).map Prod.fst) := by
  constructor
  · decide
  · decide

/-- C1 (amended): whenever every component's defaulted priority is an
ECMA-262 array index (`0 ≤ p < 2^32 - 1` — in particular for the
documented priorities 1–4), the tier sequence that `executeWorkers`
iterates over is sorted ascending by priority value. -/
theorem tiers_sorted_of_array_index_priorities (components : List Component)
    (h : ∀ c ∈ components, isArrayIndexKey (effPriority c) = true) :
    List.Pairwise (fun a b : Int => a ≤ b)
      ((jsObjectEntries (groupByPriority components)).map Prod.fst) := by
  have hkeys : ∀ g ∈ groupByPriority components, isArrayIndexKey g.1 = true := by
    intro g hg
    rcases mem_groupByPriority_key components g hg with ⟨c, hc, he⟩
    rw [he]
    exact h c hc
  unfold jsObjectEntries
  have hself : (groupByPriority components).filter
      (fun g => isArrayIndexKey g.1) = groupByPriority components :=
    List.filter_eq_self.mpr hkeys
  have hnil : (groupByPriority components).filter
      (fun g => !isArrayIndexKey g.1) = [] := by
    rw [List.filter_eq_nil_iff]
    intro g hg
    simp [hkeys g hg]
  rw [hself, hnil, List.append_nil, List.pairwise_map]
  exact List.sorted_insertionSort entryLE (groupByPriority components)

theorem tiers_sorted_witness :
    List.Pairwise (fun a b : Int => a ≤ b)
      ((jsObjectEntries (groupByPriority [cardC, buttonC])).map Prod.fst) :=
  tiers_sorted_of_array_index_priorities [cardC, buttonC] (by decide)

/-! ### C4 — Worker failures are caught and isolated -/

/-- C4: when the Worker's underlying `execute` call fails (the CLI spawn
reports an error), `buildComponent` returns a `failed` outcome with the
`error` field populated instead of re-raising; and the dispatch results are
the per-component outcomes mapped over the batches, so every sibling's
entry is computed from its own run alone — one task's failure cannot abort
or alter its siblings' outcomes. -/
theorem worker_failure_isolated (cfg : Config) (hasWorktree : Component → Bool)
    (spawnOf : Component → String → SpawnResult) (components : List Component)
    (c : Component) (wd : String) (spawned : SpawnResult) (msg : String)
    (herr : spawned.error = some msg) :
    (buildComponent c wd spawned).status = "failed" ∧
    (buildComponent c wd spawned).error = some ("CLI spawn error: " ++ msg) ∧
    executeWorkers cfg hasWorktree spawnOf components
      = (batchesOf cfg.maxParallelWorkers components).flatten.map
          (runComponent cfg hasWorktree spawnOf) := by
  refine ⟨?_, ?_, executeWorkers_eq_map cfg hasWorktree spawnOf components⟩
  · simp [buildComponent, execute, herr]
  · simp [buildComponent, execute, herr]

theorem worker_failure_isolated_witness :
    errSpawn.error = some "boom" ∧
    (buildComponent buttonC "/repo" errSpawn).status = "failed" ∧
    (buildComponent buttonC "/repo" errSpawn).error
        = some ("CLI spawn error: " ++ "boom") ∧
    executeWorkers cfgDemo (fun _ => true) (fun _ _ => errSpawn)
        [buttonC, inputC, cardC]
      = (batchesOf cfgDemo.maxParallelWorkers [buttonC, inputC, cardC]).flatten.map
          (runComponent cfgDemo (fun _ => true) (fun _ _ => errSpawn)) :=
  ⟨rfl, worker_failure_isolated cfgDemo (fun _ => true) (fun _ _ => errSpawn)
    [buttonC, inputC, cardC] buttonC "/repo" errSpawn "boom" rfl⟩

/-! ### C10 — only `success` and `failed` outcomes exist -/

/-- C10: `buildComponent` always returns status `success` or `failed` —
never the `partial` status that `printSummary` tallies — so the
`PartialSuccess` count of any dispatch run's results is zero. -/
theorem buildComponent_status_binary :
    (∀ (c : Component) (wd : String) (spawned : SpawnResult),
      (buildComponent c wd spawned).status = "success" ∨
      (buildComponent c wd spawned).status = "failed") ∧
    (∀ (cfg : Config) (hasWorktree : Component → Bool)
        (spawnOf : Component → String → SpawnResult)
        (components : List Component),
      countPartialStatus (executeWorkers cfg hasWorktree spawnOf components) = 0) := by
  have hstat : ∀ (c : Component) (wd : String) (spawned : SpawnResult),
      (buildComponent c wd spawned).status = "success" ∨
      (buildComponent c wd spawned).status = "failed" := by
    intro c wd spawned
    unfold buildComponent
    cases execute spawned with
    | ok _ => left; rfl
    | error _ => right; rfl
  refine ⟨hstat, ?_⟩
  intro cfg hasWorktree spawnOf components
  rw [executeWorkers_eq_map]
  unfold countPartialStatus
  rw [List.length_eq_zero, List.filter_eq_nil_iff]
  intro o ho
  rcases List.mem_map.mp ho with ⟨c, _, rfl⟩
  have hrc : (runComponent cfg hasWorktree spawnOf c).status = "success" ∨
      (runComponent cfg hasWorktree spawnOf c).status = "failed" := by
    unfold runComponent buildInMainProject
    by_cases h : hasWorktree c
    · simp only [h, if_pos]
      exact hstat _ _ _
    · simp only [h, if_neg, Bool.false_eq_true, not_false_iff]
      exact hstat _ _ _
  rcases hrc with h | h <;> simp [h]

/-! ### C9 — nonzero CLI exit is not a failure -/

/-- C9: when the CLI subprocess exits nonzero without a spawn error,
`execute` raises nothing — it logs a warning and returns the trimmed
stdout — so `buildComponent` still reports status `success`. -/
theorem nonzero_exit_still_success (spawned : SpawnResult) (c : Component)
    (wd : String) (hok : spawned.error = none) (hnz : spawned.status ≠ 0) :
    execute spawned = Except.ok spawned.stdout.trim ∧
    executeWarnLogs spawned
      = ["CLI 警告 (exit " ++ toString spawned.status ++ "): "
          ++ spawned.stderr.take 200] ∧
    (buildComponent c wd spawned).status = "success" := by
  refine ⟨?_, ?_, ?_⟩
  · simp [execute, hok]
  · unfold executeWarnLogs
    rw [if_pos ⟨hok, hnz⟩]
  · simp [buildComponent, execute, hok]

theorem nonzero_exit_still_success_witness :
    nzSpawn.error = none ∧
    execute nzSpawn = Except.ok nzSpawn.stdout.trim ∧
    (buildComponent buttonC "/repo" nzSpawn).status = "success" :=
  ⟨rfl,
   (nonzero_exit_still_success nzSpawn buttonC "/repo" rfl (by decide)).1,
   (nonzero_exit_still_success nzSpawn buttonC "/repo" rfl (by decide)).2.2⟩

/-! ### C7 — empty plan aborts the run -/

/-- C7: if the Planner yields no plan at all or a plan with zero
components, `processDesign` raises the planning error before any worktree
is created or any Worker is invoked: the run produces the error, an empty
action log, and no results. -/
theorem processDesign_aborts_on_empty_plan (cfg : Config)
    (hasWorktree : Component → Bool)
    (spawnOf : Component → String → SpawnResult) (plan : Option Plan)
    (h : plan = none ∨ ∃ p, plan = some p ∧ p.components = []) :
    processDesign cfg hasWorktree spawnOf plan
      = (Except.error planFailureMsg, []) := by
  rcases h with rfl | ⟨p, rfl, hp⟩
  · rfl
  · simp only [processDesign]
    rw [if_pos hp]

theorem processDesign_aborts_witness :
    processDesign cfgDemo (fun _ => true) (fun _ _ => okSpawn) none
        = (Except.error planFailureMsg, []) ∧
    processDesign cfgDemo (fun _ => true) (fun _ _ => okSpawn)
        (some { components := [] })
      = (Except.error planFailureMsg, []) :=
  ⟨processDesign_aborts_on_empty_plan cfgDemo (fun _ => true)
      (fun _ _ => okSpawn) none (Or.inl rfl),
   processDesign_aborts_on_empty_plan cfgDemo (fun _ => true)
      (fun _ _ => okSpawn) (some { components := [] })
      (Or.inr ⟨{ components := [] }, rfl, rfl⟩)⟩

/-! ### C6 — fallback to the shared project directory -/

/-- C6 counterexample: for a task whose worktree is absent, the produced
outcome is the plain success record — byte-for-byte the same outcome the
task gets when its worktree exists — so no field of the outcome carries a
degraded-isolation note. -/
theorem missing_worktree_outcome_unmarked :
    executeWorkers cfgDemo (fun _ => false) (fun _ _ => okSpawn) [buttonC]
      = [{ status := "success", component := "Button",
           filesCreated :=
             ["src/components/Button/index.tsx",
              "src/components/Button/Button.types.ts",
              "src/components/Button/Button.test.tsx"],
           error := none,
           summary := "组件 Button 已生成并提交" }] ∧
    executeWorkers cfgDemo (fun _ => false) (fun _ _ => okSpawn) [buttonC]
      = executeWorkers cfgDemo (fun _ => true) (fun _ _ => okSpawn) [buttonC] := by
  constructor
  · decide
  · decide

/-- C6 (amended): a task whose worktree is absent at dispatch time is still
attempted against the shared project root (not dropped), its outcome
appears among the results, and the degraded-isolation condition is
recorded only as a console warning line — not in the outcome. -/
theorem fallback_to_project_root (cfg : Config) (hasWorktree : Component → Bool)
    (spawnOf : Component → String → SpawnResult) (components : List Component)
    (c : Component) (hlim : 0 < cfg.maxParallelWorkers)
    (hc : c ∈ components) (habs : hasWorktree c = false) :
    workingDirFor cfg hasWorktree c = cfg.projectRoot ∧
    runComponent cfg hasWorktree spawnOf c = buildInMainProject cfg spawnOf c ∧
    runComponent cfg hasWorktree spawnOf c
        ∈ executeWorkers cfg hasWorktree spawnOf components ∧
    worktreeMissingLog c ∈ executeWorkersLogs cfg hasWorktree components := by
  have hmem : c ∈ (batchesOf cfg.maxParallelWorkers components).flatten :=
    ((batchesOf_flatten_perm _ hlim components).mem_iff).mpr hc
  refine ⟨?_, ?_, ?_, ?_⟩
  · simp [workingDirFor, habs]
  · simp [runComponent, habs]
  · rw [executeWorkers_eq_map]
    exact List.mem_map_of_mem _ hmem
  · rw [executeWorkersLogs_eq]
    refine List.mem_flatMap.mpr ⟨c, hmem, ?_⟩
    simp [componentWarnLogs, habs]

theorem fallback_to_project_root_witness :
    workingDirFor cfgDemo (fun _ => false) buttonC = cfgDemo.projectRoot ∧
    runComponent cfgDemo (fun _ => false) (fun _ _ => okSpawn) buttonC
        = buildInMainProject cfgDemo (fun _ _ => okSpawn) buttonC ∧
    runComponent cfgDemo (fun _ => false) (fun _ _ => okSpawn) buttonC
        ∈ executeWorkers cfgDemo (fun _ => false) (fun _ _ => okSpawn)
            [buttonC, cardC] ∧
    worktreeMissingLog buttonC
        ∈ executeWorkersLogs cfgDemo (fun _ => false) [buttonC, cardC] :=
  fallback_to_project_root cfgDemo (fun _ => false) (fun _ _ => okSpawn)
    [buttonC, cardC] buttonC (by decide) (by decide) rfl

/-! ### C2 — concurrency bound and batch barrier -/

theorem startsOf_append (a b : List Ev) :
    startsOf (a ++ b) = startsOf a ++ startsOf b :=
  List.filterMap_append a b _

theorem finishesOf_append (a b : List Ev) :
    finishesOf (a ++ b) = finishesOf a ++ finishesOf b :=
  List.filterMap_append a b _

theorem mem_startsOf {n : String} {tr : List Ev} :
    n ∈ startsOf tr ↔ Ev.start n ∈ tr := by
  unfold startsOf
  rw [List.mem_filterMap]
  constructor
  · rintro ⟨e, he, hfe⟩
    cases e with
    | start nm =>
      simp only [Option.some_inj] at hfe
      rw [← hfe]
      exact he
    | finish nm => simp at hfe
  · intro h
    exact ⟨Ev.start n, h, rfl⟩

theorem mem_finishesOf {n : String} {tr : List Ev} :
    n ∈ finishesOf tr ↔ Ev.finish n ∈ tr := by
  unfold finishesOf
  rw [List.mem_filterMap]
  constructor
  · rintro ⟨e, he, hfe⟩
    cases e with
    | start nm => simp at hfe
    | finish nm =>
      simp only [Option.some_inj] at hfe
      rw [← hfe]
      exact he
  · intro h
    exact ⟨Ev.finish n, h, rfl⟩

theorem startsOf_flatten (L : List (List Ev)) :
    startsOf L.flatten = (L.map startsOf).flatten := by
  induction L with
  | nil => rfl
  | cons s L ih => simp only [List.flatten_cons, startsOf_append, ih, List.map_cons]

theorem batchTrace_starts_length {batch : List Component} {tr : List Ev}
    (h : IsBatchTrace batch tr) : (startsOf tr).length = batch.length := by
  rw [h.1.length_eq, List.length_map]

theorem batchTrace_finishes_length {batch : List Component} {tr : List Ev}
    (h : IsBatchTrace batch tr) : (finishesOf tr).length = batch.length := by
  rw [h.2.1.length_eq, List.length_map]

/-- A prefix of a concatenation is a prefix of the first part, or extends
it by a prefix of the second part. -/
theorem prefix_append_cases {α : Type} {p a b : List α} (h : p <+: a ++ b) :
    p <+: a ∨ ∃ q, p = a ++ q ∧ q <+: b := by
  rcases le_or_lt p.length a.length with hle | hlt
  · exact Or.inl (List.prefix_of_prefix_length_le h (List.prefix_append a b) hle)
  · have ha : a <+: p :=
      List.prefix_of_prefix_length_le (List.prefix_append a b) h (le_of_lt hlt)
    rcases ha with ⟨q, rfl⟩
    refine Or.inr ⟨q, rfl, ?_⟩
    rcases h with ⟨t, ht⟩
    rw [List.append_assoc] at ht
    exact ⟨t, List.append_cancel_left ht⟩

/-- Along any prefix of a sequential concatenation of batch traces, the
number of started tasks never exceeds the number of finished tasks plus the
size bound of the batches. -/
theorem starts_le_finishes_add_limit (limit : Nat) :
    ∀ {batches : List (List Component)} {segs : List (List Ev)},
      List.Forall₂ IsBatchTrace batches segs →
      (∀ b ∈ batches, b.length ≤ limit) →
      ∀ p, p <+: segs.flatten →
        (startsOf p).length ≤ (finishesOf p).length + limit := by
  intro batches segs h
  induction h with
  | nil =>
    intro _ p hp
    have hpn : p = [] := by
      simpa using List.prefix_nil.mp (by simpa using hp)
    subst hpn
    simp [startsOf, finishesOf]
  | @cons b s batches' segs' hbs _ ih =>
    intro hb p hp
    rw [List.flatten_cons] at hp
    rcases prefix_append_cases hp with hpa | ⟨q, rfl, hq⟩
    · have h1 : (startsOf p).length ≤ (startsOf s).length :=
        (List.IsPrefix.filterMap _ hpa).length_le
      have h2 := batchTrace_starts_length hbs
      have h3 : b.length ≤ limit := hb b (List.mem_cons_self _ _)
      omega
    · have ih' := ih (fun b' hb' => hb b' (List.mem_cons_of_mem _ hb')) q hq
      rw [startsOf_append, finishesOf_append, List.length_append,
        List.length_append]
      have h2 := batchTrace_starts_length hbs
      have h3 := batchTrace_finishes_length hbs
      omega

/-- C2: along any trace the dispatch loop can produce and at every prefix
of it, never are more than `maxParallelWorkers` Task Executor calls
simultaneously in flight; and every task of an earlier batch has reached
its terminal event before any task of a later batch starts: a prefix
containing the start of a batch-`j` task contains the finish of every task
of every batch `i < j`. -/
theorem executeWorkers_concurrency_bound (cfg : Config)
    (components : List Component) (tr p : List Ev)
    (hlim : 0 < cfg.maxParallelWorkers)
    (hnd : (components.map Component.name).Nodup)
    (htr : IsDispatchTrace cfg.maxParallelWorkers components tr)
    (hp : p <+: tr) :
    inFlightCount p ≤ cfg.maxParallelWorkers ∧
    ∀ (i j : Nat) (hi : i < (batchesOf cfg.maxParallelWorkers components).length)
      (hj : j < (batchesOf cfg.maxParallelWorkers components).length),
      i < j →
      ∀ m ∈ ((batchesOf cfg.maxParallelWorkers components).get ⟨i, hi⟩).map
          Component.name,
      ∀ n ∈ ((batchesOf cfg.maxParallelWorkers components).get ⟨j, hj⟩).map
          Component.name,
      Ev.start n ∈ p → Ev.finish m ∈ p := by
  obtain ⟨segs, hF, rfl⟩ := htr
  have hb : ∀ b ∈ batchesOf cfg.maxParallelWorkers components,
      b.length ≤ cfg.maxParallelWorkers :=
    fun b hbm => (mem_batchesOf_length _ hlim components b hbm).1
  constructor
  · have hle := starts_le_finishes_add_limit cfg.maxParallelWorkers hF hb p hp
    unfold inFlightCount
    omega
  · intro i j hi hj hij m hm n hn hstart
    have hlen : (batchesOf cfg.maxParallelWorkers components).length
        = segs.length := hF.length_eq
    have hget := (List.forall₂_iff_get.mp hF).2
    set batches := batchesOf cfg.maxParallelWorkers components with hbatches
    set A := (segs.take j).flatten with hA
    have hAp : A <+: segs.flatten := by
      conv_rhs => rw [← List.take_append_drop j segs]
      rw [List.flatten_append]
      exact List.prefix_append _ _
    have hndf : ((batches.map (fun b => b.map Component.name)).flatten).Nodup := by
      rw [← List.map_flatten]
      exact ((batchesOf_flatten_perm _ hlim components).map
        Component.name).symm.nodup hnd
    have hdisj := (List.nodup_flatten.mp hndf).2
    have hstartA : Ev.start n ∉ A := by
      intro hin
      rcases List.mem_flatten.mp hin with ⟨s, hsmem, hsin⟩
      rcases List.mem_iff_getElem.mp hsmem with ⟨k, hk, hks⟩
      have hkj : k < j := by
        simp only [List.length_take] at hk
        omega
      have hkseg : k < segs.length := by
        simp only [List.length_take] at hk
        omega
      have hkb : k < batches.length := by omega
      have hks' : segs[k] = s := by
        rw [← hks, List.getElem_take]
      have hbt : IsBatchTrace (batches.get ⟨k, hkb⟩) (segs.get ⟨k, hkseg⟩) :=
        hget k hkb hkseg
      have hnk : n ∈ (batches.get ⟨k, hkb⟩).map Component.name := by
        refine hbt.1.mem_iff.mp ?_
        rw [mem_startsOf]
        simp only [List.get_eq_getElem, hks']
        exact hsin
      have hpair := List.pairwise_iff_getElem.mp hdisj k j
        (by simpa using hkb) (by simpa using hj) hkj
      rw [List.getElem_map, List.getElem_map] at hpair
      have h1 : n ∈ List.map Component.name batches[k] := by
        simpa [List.get_eq_getElem] using hnk
      have h2 : n ∈ List.map Component.name batches[j] := by
        simpa [List.get_eq_getElem] using hn
      exact List.disjoint_left.mp hpair h1 h2
    have hAP : A <+: p := by
      rcases le_or_lt p.length A.length with hle | hlt
      · exact absurd ((List.prefix_of_prefix_length_le hp hAp hle).subset hstart)
          hstartA
      · exact List.prefix_of_prefix_length_le hAp hp (le_of_lt hlt)
    have hiseg : i < segs.length := by omega
    have hbt : IsBatchTrace (batches.get ⟨i, hi⟩) (segs.get ⟨i, hiseg⟩) :=
      hget i hi hiseg
    have hmf : Ev.finish m ∈ segs[i] := by
      rw [← mem_finishesOf]
      simpa [List.get_eq_getElem] using hbt.2.1.mem_iff.mpr hm
    have hsegA : segs[i] ∈ segs.take j := by
      rw [List.mem_iff_getElem]
      refine ⟨i, ?_, ?_⟩
      · simp only [List.length_take]
        omega
      · rw [List.getElem_take]
    exact hAP.subset (List.mem_flatten.mpr ⟨segs[i], hsegA, hmf⟩)

theorem executeWorkers_concurrency_bound_witness :
    inFlightCount [Ev.start "button", Ev.start "input", Ev.finish "input",
        Ev.finish "button", Ev.start "card"] ≤ cfgDemo.maxParallelWorkers ∧
    Ev.finish "button" ∈ [Ev.start "button", Ev.start "input",
        Ev.finish "input", Ev.finish "button", Ev.start "card"] := by
  have hb : batchesOf cfgDemo.maxParallelWorkers [buttonC, inputC, cardC]
      = [[buttonC, inputC], [cardC]] := by decide
  have hF2 : List.Forall₂ IsBatchTrace
      (batchesOf cfgDemo.maxParallelWorkers [buttonC, inputC, cardC])
      [[Ev.start "button", Ev.start "input", Ev.finish "input",
         Ev.finish "button"],
       [Ev.start "card", Ev.finish "card"]] := by
    rw [hb]
    exact List.Forall₂.cons (by decide) (List.Forall₂.cons (by decide)
      List.Forall₂.nil)
  have H := executeWorkers_concurrency_bound cfgDemo [buttonC, inputC, cardC]
    [Ev.start "button", Ev.start "input", Ev.finish "input",
      Ev.finish "button", Ev.start "card", Ev.finish "card"]
    [Ev.start "button", Ev.start "input", Ev.finish "input",
      Ev.finish "button", Ev.start "card"]
    (by decide) (by decide)
    ⟨[[Ev.start "button", Ev.start "input", Ev.finish "input",
        Ev.finish "button"],
      [Ev.start "card", Ev.finish "card"]], hF2, rfl⟩
    (by decide)
  exact ⟨H.1, H.2 0 1 (by decide) (by decide) (by decide) "button" (by decide)
    "card" (by decide) (by decide)⟩
